import Mathlib

/-! Verification development for the memory-crystal repository.

This file shallowly embeds the core operations of the repository —
the crypto sealing of relay payloads (crypto.ts), the device-side mirror
pull (mirror-sync.ts), the dead-drop relay worker (worker.ts), and the
ingestion / hybrid-search / chunking engine (core.ts) — and proves
theorems about them.

Modelling conventions:
* byte strings are lists of naturals; base64/hex wire encodings are
  bijective and are therefore elided (payload fields hold decoded bytes);
* the external cryptographic primitives from node:crypto (SHA-256, HMAC,
  HKDF, AES-256-GCM) are not part of this repository; they are modelled
  symbolically as idealized injective functions, while the control flow of
  `encrypt` / `decrypt` / `pullMirror` is translated from the source;
* JavaScript numbers only ever hold small integers here, so they are
  modelled as `Int` / `Nat`; fractional scores are modelled as `Rat`.
-/

/-- Byte strings, modelled as lists of naturals. -/
abbrev Bytes := List Nat

/-- Check whether an `Except` is an error. -/
def isErr {ε α : Type} : Except ε α → Bool
  | .error _ => true
  | .ok _ => false

/-- Flip one bit of the byte at index `i` (the single-bit corruption used in
the tamper claims). Out-of-range indices leave the list unchanged. -/
def flipBit (bs : Bytes) (i : Nat) (bit : Nat) : Bytes :=
  bs.set i (Nat.xor (bs.getD i 0) (2 ^ bit))

/-! ## Crypto primitives (crypto.ts)

The HKDF / HMAC / AES-GCM calls go to node:crypto, outside this repository;
they are modelled symbolically as injective functions.  Everything below
`encrypt` / `decrypt` follows the source control flow. -/

/-- Modelled symbolically: `hkdfSync(sha256, masterKey, empty-salt,
crystal-relay-sign, 32)` from node:crypto, idealized as an injective tagging
of the master key. -/
def deriveSigningKey (masterKey : Bytes) : Bytes := 83 :: masterKey

/-- Modelled symbolically: HMAC-SHA-256 from node:crypto, idealized as an
injective (length-prefixed) pairing of key and data. -/
def hmacSHA256 (key data : Bytes) : Bytes := key.length :: (key ++ data)

/-- Modelled symbolically: the AES-256-GCM keystream, idealized as a
bijection on byte strings. -/
def gcmKeystream (b : Bytes) : Bytes := b.map (fun x => x + 1)

/-- Inverse of `gcmKeystream`. -/
def gcmUnkeystream (b : Bytes) : Bytes := b.map (fun x => x - 1)

/-- Modelled symbolically: the 128-bit GCM authentication tag over key,
nonce and ciphertext, idealized as an injective function. -/
def gcmTag (key nonce ct : Bytes) : Bytes :=
  255 :: key.length :: nonce.length :: (key ++ nonce ++ ct)

/-- AES-256-GCM encryption producing (ciphertext, tag). -/
def aesGcmEncrypt (key nonce pt : Bytes) : Bytes × Bytes :=
  let ct := gcmKeystream pt
  (ct, gcmTag key nonce ct)

/-- AES-256-GCM decryption; fails when the authentication tag is wrong. -/
def aesGcmDecrypt (key nonce ct tag : Bytes) : Option Bytes :=
  if tag = gcmTag key nonce ct then some (gcmUnkeystream ct) else none

/-- The sealed envelope of crypto.ts: version tag, nonce, ciphertext, GCM
tag and HMAC (fields hold the decoded bytes of the base64/hex strings). -/
structure EncryptedPayload where
  v : Nat
  nonce : Bytes
  ciphertext : Bytes
  tag : Bytes
  hmac : Bytes
deriving Repr, DecidableEq

/-- The `encrypt` function of crypto.ts.  The random 96-bit nonce is an
explicit argument (it is drawn by `randomBytes(12)` in the source). -/
def encrypt (plaintext masterKey nonce : Bytes) : EncryptedPayload :=
  let ct := (aesGcmEncrypt masterKey nonce plaintext).1
  let tag := (aesGcmEncrypt masterKey nonce plaintext).2
  let signingKey := deriveSigningKey masterKey
  let hmac := hmacSHA256 signingKey (nonce ++ ct ++ tag)
  { v := 1, nonce := nonce, ciphertext := ct, tag := tag, hmac := hmac }

/-- The `decrypt` function of crypto.ts: reject version ≠ 1, recompute and
compare the HMAC before any decryption, then AES-GCM decrypt. -/
def decrypt (payload : EncryptedPayload) (masterKey : Bytes) : Except String Bytes :=
  if payload.v ≠ 1 then .error "Unknown payload version"
  else if payload.hmac ≠
      hmacSHA256 (deriveSigningKey masterKey)
        (payload.nonce ++ payload.ciphertext ++ payload.tag) then
    .error "HMAC verification failed — blob rejected (tampered or wrong key)"
  else
    match aesGcmDecrypt masterKey payload.nonce payload.ciphertext payload.tag with
    | some pt => .ok pt
    | none => .error "Unsupported state or unable to authenticate data"

/-- The `hashBuffer` function of crypto.ts (SHA-256 hex digest), modelled
symbolically as an injective digest (the identity idealizes
collision-freeness). -/
def hashBufferHex (data : Bytes) : Bytes := data

/-! ## Mirror pull (mirror-sync.ts) -/

/-- Decrypted mirror metadata object. -/
structure MirrorMeta where
  hash : Bytes
  size : Int
  pushed_at : String
deriving Repr, DecidableEq

/-- The `{meta, db}` JSON body fetched from the mirror channel. -/
structure MirrorPayload where
  meta : EncryptedPayload
  db : EncryptedPayload
deriving Repr, DecidableEq

/-- The locally cached mirror-sync state (mirror-sync-state.json). -/
structure MirrorState where
  lastSync : Option String
  lastHash : Option Bytes
  lastSize : Option Int
deriving Repr, DecidableEq

/-- The device-local files touched by a mirror pull. -/
structure MirrorLocal where
  mirrorFile : Option Bytes
  tmpFile : Option Bytes
  bakFile : Option Bytes
  state : MirrorState
deriving Repr, DecidableEq

/-- The `pullMirror` function of mirror-sync.ts.  Network responses are
inputs (`listOk`, `blobs`, `fetchOk`, `payloadOpt`); JSON parsing of the
decrypted metadata is the external parameter `parseMeta`.  The local
filesystem is threaded through and returned unchanged up to the point the
source throws. -/
def pullMirror (hasRelayConfig : Bool) (key : Bytes) (listOk : Bool)
    (blobs : List String) (fetchOk : Bool) (payloadOpt : Option MirrorPayload)
    (parseMeta : Bytes → Option MirrorMeta) (force : Bool)
    (fs : MirrorLocal) (now : String) : MirrorLocal × Except String Bool :=
  if ¬hasRelayConfig then
    (fs, .error "CRYSTAL_RELAY_URL and CRYSTAL_RELAY_TOKEN must be set")
  else if ¬listOk then (fs, .error "Relay list failed")
  else if blobs = [] then (fs, .ok false)
  else if ¬fetchOk then (fs, .error "Mirror fetch failed")
  else
    match payloadOpt with
    | none => (fs, .error "Unexpected token in JSON")
    | some payload =>
      match decrypt payload.meta key with
      | .error e => (fs, .error e)
      | .ok metaBytes =>
        match parseMeta metaBytes with
        | none => (fs, .error "Unexpected token in JSON")
        | some meta =>
          if ¬force ∧ fs.state.lastHash = some meta.hash then (fs, .ok false)
          else
            match decrypt payload.db key with
            | .error e => (fs, .error e)
            | .ok dbData =>
              if hashBufferHex dbData ≠ meta.hash then
                (fs, .error "Mirror integrity check failed")
              else
                let fs1 := { fs with tmpFile := some dbData }
                let fs2 :=
                  if fs1.mirrorFile.isSome then
                    { fs1 with bakFile := fs1.mirrorFile, mirrorFile := none }
                  else fs1
                let fs3 := { fs2 with mirrorFile := fs2.tmpFile, tmpFile := none }
                let fs4 := { fs3 with state :=
                  { lastSync := some now, lastHash := some meta.hash,
                    lastSize := some (dbData.length : Int) } }
                (fs4, .ok true)

/-! ## Helper lemmas about the symbolic primitives -/

theorem hmacSHA256_inj {k d k2 d2 : Bytes} (h : hmacSHA256 k d = hmacSHA256 k2 d2) :
    k = k2 ∧ d = d2 := by
  unfold hmacSHA256 at h
  have hlen : k.length = k2.length := by
    have := congrArg (fun l => l.headD 0) h
    simpa using this
  have htail : k ++ d = k2 ++ d2 := by
    have := congrArg List.tail h
    simpa using this
  exact List.append_inj htail hlen

theorem deriveSigningKey_inj {k k2 : Bytes}
    (h : deriveSigningKey k = deriveSigningKey k2) : k = k2 := by
  unfold deriveSigningKey at h
  simpa using h

theorem gcmUnkeystream_keystream (b : Bytes) :
    gcmUnkeystream (gcmKeystream b) = b := by
  induction b with
  | nil => rfl
  | cons a t ih =>
    simp only [gcmKeystream, gcmUnkeystream, List.map_cons] at ih ⊢
    simp [ih, Nat.add_sub_cancel]

theorem flipBit_length (bs : Bytes) (i bit : Nat) :
    (flipBit bs i bit).length = bs.length := by
  unfold flipBit
  simp

theorem flipBit_ne (bs : Bytes) (i bit : Nat) (hi : i < bs.length) :
    flipBit bs i bit ≠ bs := by
  unfold flipBit
  intro h
  have hget : (bs.set i (Nat.xor (bs.getD i 0) (2 ^ bit)))[i]? = bs[i]? := by rw [h]
  rw [List.getElem?_set_eq_of_lt _ hi, List.getElem?_eq_getElem hi] at hget
  have hbsgetD : bs.getD i 0 = bs[i] := by
    simp [List.getD, List.getElem?_eq_getElem hi]
  rw [hbsgetD] at hget
  have hx : bs[i] ^^^ (2 ^ bit) = bs[i] := Option.some.inj hget
  have key : ∀ a v : Nat, a ^^^ v = a → v = 0 := by
    intro a v hav
    have h1 : a ^^^ (a ^^^ v) = a ^^^ a := by rw [hav]
    rwa [← Nat.xor_assoc, Nat.xor_self, Nat.zero_xor] at h1
  have hzero := key bs[i] (2 ^ bit) hx
  have hpos : 0 < (2 : Nat) ^ bit := Nat.pow_pos (by omega)
  omega

theorem decrypt_encrypt (m k nonce : Bytes) :
    decrypt (encrypt m k nonce) k = .ok m := by
  simp [decrypt, encrypt, aesGcmEncrypt, aesGcmDecrypt, gcmUnkeystream_keystream]

theorem decrypt_hmac_mismatch (p : EncryptedPayload) (k : Bytes) (hv : p.v = 1)
    (hne : p.hmac ≠ hmacSHA256 (deriveSigningKey k) (p.nonce ++ p.ciphertext ++ p.tag)) :
    decrypt p k = .error "HMAC verification failed — blob rejected (tampered or wrong key)" := by
  rw [decrypt, if_neg (by simp [hv]), if_pos hne]

theorem decrypt_bad_version (p : EncryptedPayload) (k : Bytes) (hv : p.v ≠ 1) :
    decrypt p k = .error "Unknown payload version" := by
  simp [decrypt, hv]

/-- C2: for every plaintext and key, `decrypt (encrypt m k) k = m`; decryption
fails for a different key, for a single-bit flip in the nonce, ciphertext,
tag or hmac field, and for a version field other than 1; and whenever the
stored HMAC differs from the recomputed one the result is the HMAC-stage
rejection, i.e. the HMAC is checked before any decryption is attempted. -/
theorem c2_seal_open_roundtrip_and_tamper (m k nonce : Bytes) :
    decrypt (encrypt m k nonce) k = .ok m
    ∧ (∀ k2, k2 ≠ k → isErr (decrypt (encrypt m k nonce) k2) = true)
    ∧ (∀ i b, i < nonce.length →
        isErr (decrypt { encrypt m k nonce with nonce := flipBit nonce i b } k) = true)
    ∧ (∀ i b, i < (encrypt m k nonce).ciphertext.length →
        isErr (decrypt { encrypt m k nonce with
          ciphertext := flipBit (encrypt m k nonce).ciphertext i b } k) = true)
    ∧ (∀ i b, i < (encrypt m k nonce).tag.length →
        isErr (decrypt { encrypt m k nonce with
          tag := flipBit (encrypt m k nonce).tag i b } k) = true)
    ∧ (∀ i b, i < (encrypt m k nonce).hmac.length →
        isErr (decrypt { encrypt m k nonce with
          hmac := flipBit (encrypt m k nonce).hmac i b } k) = true)
    ∧ (∀ v2, v2 ≠ 1 → isErr (decrypt { encrypt m k nonce with v := v2 } k) = true)
    ∧ (∀ p : EncryptedPayload, p.v = 1 →
        p.hmac ≠ hmacSHA256 (deriveSigningKey k) (p.nonce ++ p.ciphertext ++ p.tag) →
        decrypt p k
          = .error "HMAC verification failed — blob rejected (tampered or wrong key)") := by
  refine ⟨decrypt_encrypt m k nonce, ?_, ?_, ?_, ?_, ?_, ?_, ?_⟩
  · intro k2 hk2
    rw [decrypt_hmac_mismatch _ _ rfl ?_]
    · rfl
    · intro heq
      simp only [encrypt] at heq
      exact hk2 (deriveSigningKey_inj (hmacSHA256_inj heq).1).symm
  · intro i b hi
    rw [decrypt_hmac_mismatch _ _ rfl ?_]
    · rfl
    · intro heq
      simp only [encrypt] at heq
      have hdata := (hmacSHA256_inj heq).2
      have h1 := List.append_inj hdata (by simp [flipBit_length])
      have h2 := List.append_inj h1.1 (by simp [flipBit_length])
      exact flipBit_ne nonce i b hi h2.1.symm
  · intro i b hi
    rw [decrypt_hmac_mismatch _ _ rfl ?_]
    · rfl
    · intro heq
      simp only [encrypt] at heq hi
      have hdata := (hmacSHA256_inj heq).2
      have h1 := List.append_inj hdata (by simp [flipBit_length])
      have h2 := List.append_inj h1.1 (by simp [flipBit_length])
      exact flipBit_ne _ i b hi h2.2.symm
  · intro i b hi
    rw [decrypt_hmac_mismatch _ _ rfl ?_]
    · rfl
    · intro heq
      simp only [encrypt] at heq hi
      have hdata := (hmacSHA256_inj heq).2
      have h1 := List.append_inj hdata (by simp [flipBit_length])
      exact flipBit_ne _ i b hi h1.2.symm
  · intro i b hi
    rw [decrypt_hmac_mismatch _ _ rfl ?_]
    · rfl
    · intro heq
      simp only [encrypt] at heq hi
      exact flipBit_ne _ i b hi heq
  · intro v2 hv2
    rw [decrypt_bad_version _ _ hv2]
    rfl
  · intro p hv hne
    exact decrypt_hmac_mismatch p k hv hne

/-- Witness for C2 at concrete inputs. -/
theorem c2_seal_open_roundtrip_and_tamper_witness :
    decrypt (encrypt [1, 2] [5] [7]) [5] = .ok [1, 2]
    ∧ isErr (decrypt (encrypt [1, 2] [5] [7]) [6]) = true
    ∧ isErr (decrypt { encrypt [1, 2] [5] [7] with
        nonce := flipBit [7] 0 0 } [5]) = true
    ∧ isErr (decrypt { encrypt [1, 2] [5] [7] with
        ciphertext := flipBit (encrypt [1, 2] [5] [7]).ciphertext 0 0 } [5]) = true
    ∧ isErr (decrypt { encrypt [1, 2] [5] [7] with
        tag := flipBit (encrypt [1, 2] [5] [7]).tag 0 0 } [5]) = true
    ∧ isErr (decrypt { encrypt [1, 2] [5] [7] with
        hmac := flipBit (encrypt [1, 2] [5] [7]).hmac 0 0 } [5]) = true
    ∧ isErr (decrypt { encrypt [1, 2] [5] [7] with v := 2 } [5]) = true := by
  have h := c2_seal_open_roundtrip_and_tamper [1, 2] [5] [7]
  exact ⟨h.1, h.2.1 [6] (by decide), h.2.2.1 0 0 (by decide),
    h.2.2.2.1 0 0 (by decide), h.2.2.2.2.1 0 0 (by decide),
    h.2.2.2.2.2.1 0 0 (by decide), h.2.2.2.2.2.2.1 2 (by decide)⟩

/-- C3: when the SHA-256 of the decrypted mirror db differs from the
decrypted `meta.hash`, the pull returns the integrity error and the local
mirror file, tmp/bak files and cached sync state are all unchanged. -/
theorem c3_mirror_integrity_abort (key : Bytes) (blobs : List String)
    (payload : MirrorPayload) (parseMeta : Bytes → Option MirrorMeta)
    (force : Bool) (fs : MirrorLocal) (now : String)
    (metaBytes dbData : Bytes) (meta : MirrorMeta)
    (hblobs : blobs ≠ [])
    (hmeta : decrypt payload.meta key = .ok metaBytes)
    (hparse : parseMeta metaBytes = some meta)
    (hfresh : force = true ∨ fs.state.lastHash ≠ some meta.hash)
    (hdb : decrypt payload.db key = .ok dbData)
    (hmismatch : hashBufferHex dbData ≠ meta.hash) :
    (pullMirror true key true blobs true (some payload) parseMeta force fs now).1 = fs
    ∧ (pullMirror true key true blobs true (some payload) parseMeta force fs now).2
        = .error "Mirror integrity check failed" := by
  have hmain : pullMirror true key true blobs true (some payload) parseMeta force fs now
      = (fs, .error "Mirror integrity check failed") := by
    rcases hfresh with hf | hh
    · subst hf
      simp [pullMirror, hblobs, hmeta, hparse, hdb, hmismatch]
    · simp [pullMirror, hblobs, hmeta, hparse, hdb, hmismatch, hh]
  exact ⟨by rw [hmain], by rw [hmain]⟩

/-- Witness for C3 at concrete inputs. -/
theorem c3_mirror_integrity_abort_witness :
    (pullMirror true [5] true ["x"] true
        (some ⟨encrypt [1] [5] [9], encrypt [2, 3] [5] [8]⟩)
        (fun _ => some ⟨[9, 9], 2, "t"⟩) true
        ⟨some [0], none, none, ⟨none, none, none⟩⟩ "now").1
      = ⟨some [0], none, none, ⟨none, none, none⟩⟩
    ∧ (pullMirror true [5] true ["x"] true
        (some ⟨encrypt [1] [5] [9], encrypt [2, 3] [5] [8]⟩)
        (fun _ => some ⟨[9, 9], 2, "t"⟩) true
        ⟨some [0], none, none, ⟨none, none, none⟩⟩ "now").2
      = .error "Mirror integrity check failed" :=
  c3_mirror_integrity_abort [5] ["x"]
    ⟨encrypt [1] [5] [9], encrypt [2, 3] [5] [8]⟩
    (fun _ => some ⟨[9, 9], 2, "t"⟩) true
    ⟨some [0], none, none, ⟨none, none, none⟩⟩ "now"
    [1] [2, 3] ⟨[9, 9], 2, "t"⟩
    (by decide) (decrypt_encrypt [1] [5] [9]) rfl (Or.inl rfl)
    (decrypt_encrypt [2, 3] [5] [8]) (by decide)

/-! ## Dead-drop relay (worker.ts) -/

/-- A stored blob with its R2 custom metadata. -/
structure Blob where
  body : Bytes
  agent_id : String
  dropped_at : String
deriving Repr, DecidableEq

/-- The R2 bucket, modelled as an association of object keys to blobs
(`put` conses, `get` finds the most recent entry, `delete` removes all
entries of the key). -/
abbrev Bucket := List (String × Blob)

/-- R2 `get`/`head` on the bucket model. -/
def bucketGet (b : Bucket) (key : String) : Option Blob :=
  match b with
  | [] => none
  | (k, v) :: rest => if k = key then some v else bucketGet rest key

/-- R2 `put` on the bucket model. -/
def bucketPut (b : Bucket) (key : String) (v : Blob) : Bucket := (key, v) :: b

/-- R2 `delete` on the bucket model. -/
def bucketDelete (b : Bucket) (key : String) : Bucket :=
  b.filter (fun p => decide (p.1 ≠ key))

/-- The valid relay channels of worker.ts. -/
def VALID_CHANNELS : List String := ["conversations", "mirror"]

/-- The `isValidChannel` function of worker.ts. -/
def isValidChannel (channel : String) : Bool := VALID_CHANNELS.contains channel

/-- Responses, reduced to the observable parts: status plus either a json
message or raw blob bytes. -/
inductive Resp where
  | jsonResp (status : Nat) (msg : String) : Resp
  | bytesResp (status : Nat) (body : Bytes) (agent : String) (droppedAt : String) : Resp
deriving Repr, DecidableEq

/-- The `handleDrop` handler of worker.ts; the randomly generated UUID is an
explicit argument. -/
def handleDrop (bucket : Bucket) (channel id : String) (body : Bytes)
    (agentId now : String) : Resp × Bucket :=
  if ¬isValidChannel channel then (.jsonResp 400 "Invalid channel", bucket)
  else if body.length = 0 then (.jsonResp 400 "Empty payload", bucket)
  else if body.length > 100 * 1024 * 1024 then
    (.jsonResp 413 "Payload too large (max 100MB)", bucket)
  else
    (.jsonResp 200 id, bucketPut bucket (channel ++ "/" ++ id) ⟨body, agentId, now⟩)

/-- The `handlePickup` handler of worker.ts (a GET: it never modifies the
bucket). -/
def handlePickup (bucket : Bucket) (channel id : String) : Resp :=
  if ¬isValidChannel channel then .jsonResp 400 "Invalid channel"
  else
    match bucketGet bucket (channel ++ "/" ++ id) with
    | none => .jsonResp 404 "Blob not found (already picked up or expired)"
    | some obj => .bytesResp 200 obj.body obj.agent_id obj.dropped_at

/-- The `handleConfirm` handler of worker.ts. -/
def handleConfirm (bucket : Bucket) (channel id : String) : Resp × Bucket :=
  if ¬isValidChannel channel then (.jsonResp 400 "Invalid channel", bucket)
  else
    match bucketGet bucket (channel ++ "/" ++ id) with
    | none => (.jsonResp 404 "Blob not found (already confirmed or expired)", bucket)
    | some _ =>
      (.jsonResp 200 (channel ++ "/" ++ id), bucketDelete bucket (channel ++ "/" ++ id))

/-- Requests the worker router can dispatch to the bucket-touching handlers. -/
inductive RelayOp where
  | drop (channel id : String) (body : Bytes) (agent now : String) : RelayOp
  | pickupList (channel : String) : RelayOp
  | pickup (channel id : String) : RelayOp
  | confirm (channel id : String) : RelayOp
deriving Repr, DecidableEq

/-- The bucket after serving one request. -/
def relayStep (bucket : Bucket) : RelayOp → Bucket
  | .drop ch id body agent now => (handleDrop bucket ch id body agent now).2
  | .pickupList _ => bucket
  | .pickup _ _ => bucket
  | .confirm ch id => (handleConfirm bucket ch id).2

/-- The bucket after serving a sequence of requests. -/
def relayRun (bucket : Bucket) : List RelayOp → Bucket
  | [] => bucket
  | op :: ops => relayRun (relayStep bucket op) ops

/-- Whether a request is a drop whose assigned UUID lands on the given key. -/
def isDropToKey (op : RelayOp) (key : String) : Bool :=
  match op with
  | .drop ch id _ _ _ => decide (ch ++ "/" ++ id = key)
  | _ => false

theorem bucketGet_put_ne (b : Bucket) (k key : String) (v : Blob) (h : k ≠ key) :
    bucketGet (bucketPut b k v) key = bucketGet b key := by
  simp [bucketPut, bucketGet, h]

theorem bucketGet_eq_none_iff (b : Bucket) (key : String) :
    bucketGet b key = none ↔ ∀ p ∈ b, p.1 ≠ key := by
  induction b with
  | nil => simp [bucketGet]
  | cons p rest ih =>
    by_cases h : p.1 = key <;> simp [bucketGet, h, ih]

theorem bucketGet_delete_self (b : Bucket) (key : String) :
    bucketGet (bucketDelete b key) key = none := by
  rw [bucketGet_eq_none_iff]
  intro p hp
  have := List.of_mem_filter hp
  simpa using this

theorem bucketGet_delete_none (b : Bucket) (k key : String)
    (h : bucketGet b key = none) : bucketGet (bucketDelete b k) key = none := by
  rw [bucketGet_eq_none_iff] at h ⊢
  intro p hp
  exact h p (List.mem_of_mem_filter hp)

theorem relayStep_preserves_absent (key : String) (bucket : Bucket) (op : RelayOp)
    (h : bucketGet bucket key = none) (hop : isDropToKey op key = false) :
    bucketGet (relayStep bucket op) key = none := by
  cases op with
  | drop ch id body agent now =>
    simp only [isDropToKey, decide_eq_false_iff_not] at hop
    simp only [relayStep, handleDrop]
    split_ifs with h1 h2 h3 <;> dsimp only <;>
      first
        | exact h
        | (rw [bucketGet_put_ne _ _ _ _ hop]; exact h)
  | pickupList ch => exact h
  | pickup ch id => exact h
  | confirm ch id =>
    simp only [relayStep, handleConfirm]
    split_ifs with h1
    · cases hbg : bucketGet bucket (ch ++ "/" ++ id) with
      | none => exact h
      | some obj => exact bucketGet_delete_none bucket _ key h
    · exact h

theorem relayRun_preserves_absent (key : String) (ops : List RelayOp) :
    ∀ bucket : Bucket, bucketGet bucket key = none →
    (∀ op ∈ ops, isDropToKey op key = false) →
    bucketGet (relayRun bucket ops) key = none := by
  induction ops with
  | nil => intro bucket h _; exact h
  | cons op ops ih =>
    intro bucket h hops
    exact ih (relayStep bucket op)
      (relayStep_preserves_absent key bucket op h (hops _ (List.mem_cons_self _ _)))
      (fun o ho => hops o (List.mem_cons_of_mem _ ho))

/-- C7: a blob stored on a valid channel is returned unchanged by pickup,
pickup does not modify the bucket (so re-fetches are identical), a successful
confirm deletes it, and every subsequent pickup — across any further requests
none of which drops onto the same key — returns 404. -/
theorem c7_deaddrop_idempotent_relay (bucket : Bucket) (ch id : String) (blob : Blob)
    (hch : isValidChannel ch = true)
    (hstored : bucketGet bucket (ch ++ "/" ++ id) = some blob) :
    handlePickup bucket ch id = .bytesResp 200 blob.body blob.agent_id blob.dropped_at
    ∧ relayStep bucket (.pickup ch id) = bucket
    ∧ (handleConfirm bucket ch id).1 = .jsonResp 200 (ch ++ "/" ++ id)
    ∧ handlePickup (handleConfirm bucket ch id).2 ch id
        = .jsonResp 404 "Blob not found (already picked up or expired)"
    ∧ ∀ ops : List RelayOp, (∀ op ∈ ops, isDropToKey op (ch ++ "/" ++ id) = false) →
        handlePickup (relayRun (handleConfirm bucket ch id).2 ops) ch id
          = .jsonResp 404 "Blob not found (already picked up or expired)" := by
  have hconfirm : (handleConfirm bucket ch id).2 = bucketDelete bucket (ch ++ "/" ++ id) := by
    simp [handleConfirm, hch, hstored]
  have habsent : bucketGet (handleConfirm bucket ch id).2 (ch ++ "/" ++ id) = none := by
    rw [hconfirm]; exact bucketGet_delete_self bucket _
  refine ⟨?_, rfl, ?_, ?_, ?_⟩
  · simp [handlePickup, hch, hstored]
  · simp [handleConfirm, hch, hstored]
  · simp [handlePickup, hch, habsent]
  · intro ops hops
    have := relayRun_preserves_absent (ch ++ "/" ++ id) ops
      (handleConfirm bucket ch id).2 habsent hops
    simp [handlePickup, hch, this]

/-- Witness for C7 at a concrete bucket, channel and blob id. -/
theorem c7_deaddrop_idempotent_relay_witness :
    handlePickup [("conversations/x", ⟨[1, 2], "a", "t"⟩)] "conversations" "x"
      = .bytesResp 200 [1, 2] "a" "t"
    ∧ (handleConfirm [("conversations/x", ⟨[1, 2], "a", "t"⟩)] "conversations" "x").1
      = .jsonResp 200 "conversations/x"
    ∧ handlePickup
        (handleConfirm [("conversations/x", ⟨[1, 2], "a", "t"⟩)] "conversations" "x").2
        "conversations" "x"
      = .jsonResp 404 "Blob not found (already picked up or expired)"
    ∧ handlePickup
        (relayRun
          (handleConfirm [("conversations/x", ⟨[1, 2], "a", "t"⟩)] "conversations" "x").2
          [.pickup "conversations" "x", .drop "conversations" "y" [3] "a" "t2"])
        "conversations" "x"
      = .jsonResp 404 "Blob not found (already picked up or expired)" := by
  have h := c7_deaddrop_idempotent_relay [("conversations/x", ⟨[1, 2], "a", "t"⟩)]
    "conversations" "x" ⟨[1, 2], "a", "t"⟩ (by decide) (by decide)
  exact ⟨h.1, h.2.2.1, h.2.2.2.1,
    h.2.2.2.2 [.pickup "conversations" "x", .drop "conversations" "y" [3] "a" "t2"]
      (by decide)⟩

/-! ## Crystal core (core.ts): freshness, memories, chunks -/

/-- The four freshness buckets. -/
inductive Freshness where
  | fresh | recent | aging | stale
deriving Repr, DecidableEq

/-- The `freshnessLabel` method of core.ts. -/
def freshnessLabel (ageDays : ℚ) : Freshness :=
  if ageDays < 3 then .fresh
  else if ageDays < 7 then .recent
  else if ageDays < 14 then .aging
  else .stale

/-- The `recencyWeight` method of core.ts. -/
def recencyWeight (ageDays : ℚ) : ℚ := max (1 / 2) (1 - ageDays * (1 / 100))

/-- C8: the freshness label is exactly fresh below 3 days, recent on [3,7),
aging on [7,14) and stale from 14 days on. -/
theorem c8_freshness_thresholds (a : ℚ) :
    (freshnessLabel a = .fresh ↔ a < 3)
    ∧ (freshnessLabel a = .recent ↔ 3 ≤ a ∧ a < 7)
    ∧ (freshnessLabel a = .aging ↔ 7 ≤ a ∧ a < 14)
    ∧ (freshnessLabel a = .stale ↔ 14 ≤ a) := by
  unfold freshnessLabel
  split_ifs with h1 h2 h3 <;>
    refine ⟨⟨fun hx => ?_, fun hx => ?_⟩, ⟨fun hx => ?_, fun hx => ?_⟩,
      ⟨fun hx => ?_, fun hx => ?_⟩, ⟨fun hx => ?_, fun hx => ?_⟩⟩ <;>
    first
      | rfl
      | linarith
      | exact absurd hx (by decide)
      | exact ⟨by linarith, by linarith⟩

/-- Witness for C8 at a concrete age. -/
theorem c8_freshness_thresholds_witness :
    (freshnessLabel 5 = .recent ↔ 3 ≤ (5 : ℚ) ∧ (5 : ℚ) < 7)
    ∧ (freshnessLabel 20 = .stale ↔ 14 ≤ (20 : ℚ)) :=
  ⟨(c8_freshness_thresholds 5).2.1, (c8_freshness_thresholds 20).2.2.2⟩

/-- A row of the `chunks` table of core.ts. -/
structure ChunkRow where
  id : Nat
  text : String
  text_hash : String
  role : String
  source_type : String
  source_id : String
  agent_id : String
  token_count : Nat
  created_at : String
deriving Repr, DecidableEq

/-- A row of the `memories` table of core.ts. -/
structure MemoryRow where
  id : Nat
  text : String
  category : String
  confidence : ℚ
  source_ids : String
  status : String
  created_at : String
  updated_at : String
deriving Repr, DecidableEq

/-- A record of the legacy LanceDB `chunks` table (dual-write target). -/
structure LanceRow where
  text : String
  vector : List ℚ
  role : String
  source_type : String
  source_id : String
  agent_id : String
  token_count : Nat
  created_at : String
deriving Repr, DecidableEq

/-- The durable state of a Crystal instance: the sqlite tables (chunks with
auto-increment counter, the vec virtual table with its locked dimension,
memories) plus the optional legacy LanceDB chunks table. -/
structure CrystalDB where
  chunks : List ChunkRow
  nextId : Nat
  vecDimensions : Option Nat
  chunksVec : List (Nat × List ℚ)
  memories : List MemoryRow
  lance : Option (List LanceRow)
deriving Repr, DecidableEq

/-- The `forget` method of core.ts: `UPDATE memories SET status='deprecated',
updated_at=now WHERE id=? AND status='active'`, returning whether any row
changed. -/
def forget (db : CrystalDB) (memoryId : Nat) (now : String) : CrystalDB × Bool :=
  let changes :=
    (db.memories.filter fun m => decide (m.id = memoryId ∧ m.status = "active")).length
  ({ db with memories := db.memories.map fun m =>
      if m.id = memoryId ∧ m.status = "active" then
        { m with status := "deprecated", updated_at := now }
      else m },
   decide (0 < changes))

/-- C6: `forget` returns true iff an active memory row with the id exists;
on success the row becomes deprecated with a refreshed updated_at; no memory
row and no chunk is deleted; a second forget of the same id returns false. -/
theorem c6_forget_deprecates (db : CrystalDB) (memoryId : Nat) (now now2 : String) :
    ((forget db memoryId now).2 = true
      ↔ ∃ m ∈ db.memories, m.id = memoryId ∧ m.status = "active")
    ∧ (∀ m ∈ db.memories, m.id = memoryId → m.status = "active" →
        { m with status := "deprecated", updated_at := now }
          ∈ (forget db memoryId now).1.memories)
    ∧ (∀ m ∈ db.memories, ¬(m.id = memoryId ∧ m.status = "active") →
        m ∈ (forget db memoryId now).1.memories)
    ∧ (forget db memoryId now).1.memories.length = db.memories.length
    ∧ (forget db memoryId now).1.chunks = db.chunks
    ∧ (forget (forget db memoryId now).1 memoryId now2).2 = false := by
  refine ⟨?_, ?_, ?_, ?_, rfl, ?_⟩
  · simp only [forget, decide_eq_true_eq]
    rw [Nat.pos_iff_ne_zero, Ne, List.length_eq_zero]
    rw [List.filter_eq_nil_iff]
    push_neg
    constructor
    · rintro ⟨m, hm, hpm⟩
      exact ⟨m, hm, of_decide_eq_true (by simpa using hpm)⟩
    · rintro ⟨m, hm, hpm⟩
      exact ⟨m, hm, by simpa using decide_eq_true hpm⟩
  · intro m hm hid hst
    simp only [forget]
    refine List.mem_map.mpr ⟨m, hm, ?_⟩
    simp [hid, hst]
  · intro m hm hcond
    simp only [forget]
    refine List.mem_map.mpr ⟨m, hm, ?_⟩
    simp [hcond]
  · simp [forget]
  · simp only [forget, decide_eq_true_eq, decide_eq_false_iff_not]
    rw [Nat.pos_iff_ne_zero]
    push_neg
    rw [List.length_eq_zero, List.filter_eq_nil_iff]
    intro m2 hm2
    obtain ⟨m, hm, rfl⟩ := List.mem_map.mp hm2
    by_cases hcond : m.id = memoryId ∧ m.status = "active"
    · rw [if_pos hcond]
      simp
    · rw [if_neg hcond]
      simpa using hcond

/-- Witness for C6 at a concrete store with one active memory. -/
theorem c6_forget_deprecates_witness :
    (forget ⟨[], 1, none, [], [⟨1, "f", "fact", 1, "[]", "active", "t0", "t0"⟩], none⟩
        1 "t1").2 = true
    ∧ (forget (forget
          ⟨[], 1, none, [], [⟨1, "f", "fact", 1, "[]", "active", "t0", "t0"⟩], none⟩
          1 "t1").1 1 "t2").2 = false
    ∧ (forget ⟨[], 1, none, [], [⟨1, "f", "fact", 1, "[]", "active", "t0", "t0"⟩], none⟩
        1 "t1").1.chunks = [] := by
  have h := c6_forget_deprecates
    ⟨[], 1, none, [], [⟨1, "f", "fact", 1, "[]", "active", "t0", "t0"⟩], none⟩ 1 "t1" "t2"
  refine ⟨h.1.mpr ⟨⟨1, "f", "fact", 1, "[]", "active", "t0", "t0"⟩, by simp, rfl, rfl⟩,
    h.2.2.2.2.2, h.2.2.2.2.1⟩

/-! ## Ingestion (core.ts `ingest`) -/

/-- A candidate chunk passed to `ingest` (the `Chunk` interface of core.ts).
An empty `created_at` stands for an absent value (the source falls back via
`c.created_at || new Date().toISOString()`). -/
structure Candidate where
  text : String
  role : String
  source_type : String
  source_id : String
  agent_id : String
  token_count : Nat
  created_at : String
deriving Repr, DecidableEq

/-- SHA-256 hex digest of a text (node:crypto, external), modelled
symbolically as an injective digest. -/
def sha256Hex (s : String) : String := s

/-- The insert loop of the `ingest` transaction: for each surviving candidate
insert the chunk row under the auto-increment id and the vec row under the
same id (the FTS row is populated by the insert trigger and is derived). -/
def insertChunks (now : String) : List Candidate → List (List ℚ) → CrystalDB → CrystalDB
  | [], _, db => db
  | c :: cs, embs, db =>
    let row : ChunkRow :=
      { id := db.nextId, text := c.text, text_hash := sha256Hex c.text, role := c.role,
        source_type := c.source_type, source_id := c.source_id, agent_id := c.agent_id,
        token_count := c.token_count,
        created_at := if c.created_at = "" then now else c.created_at }
    insertChunks now cs embs.tail
      { db with
        chunks := db.chunks ++ [row]
        nextId := db.nextId + 1
        chunksVec := db.chunksVec ++ [(db.nextId, embs.headD [])] }

/-- A LanceDB dual-write record built from a candidate. -/
def lanceRecordOf (c : Candidate) (emb : List ℚ) (now : String) : LanceRow :=
  { text := c.text, vector := emb, role := c.role, source_type := c.source_type,
    source_id := c.source_id, agent_id := c.agent_id, token_count := c.token_count,
    created_at := if c.created_at = "" then now else c.created_at }

/-- The `ingest` method of core.ts: dedup against the store by SHA-256 of the
text, embed the survivors (the embedding client is the external parameter
`embedder`), lock the vec dimension on first use, insert all survivors in one
transaction, then dual-write the LanceDB records. Returns the inserted
count. -/
def ingest (db : CrystalDB) (cands : List Candidate)
    (embedder : List String → List (List ℚ)) (now : String) : CrystalDB × Nat :=
  if cands.length = 0 then (db, 0)
  else
    let newChunks := cands.filter fun c =>
      decide (¬∃ row ∈ db.chunks, row.text_hash = sha256Hex c.text)
    if newChunks.length = 0 then (db, 0)
    else
      let embeddings := embedder (newChunks.map fun c => c.text)
      let db1 :=
        if db.vecDimensions.isNone ∧ 0 < embeddings.length then
          { db with vecDimensions := some (embeddings.headD []).length }
        else db
      let db2 := insertChunks now newChunks embeddings db1
      let records := newChunks.mapIdx fun i c => lanceRecordOf c (embeddings.getD i []) now
      let db3 := { db2 with lance := some (db2.lance.getD [] ++ records) }
      (db3, newChunks.length)

theorem insertChunks_map_hash (now : String) :
    ∀ (cs : List Candidate) (embs : List (List ℚ)) (db : CrystalDB),
    ((insertChunks now cs embs db).chunks.map fun r => r.text_hash)
      = (db.chunks.map fun r => r.text_hash) ++ cs.map fun c => sha256Hex c.text := by
  intro cs
  induction cs with
  | nil => intro embs db; simp [insertChunks]
  | cons c cs ih =>
    intro embs db
    rw [insertChunks, ih]
    simp

theorem insertChunks_length (now : String) (cs : List Candidate)
    (embs : List (List ℚ)) (db : CrystalDB) :
    (insertChunks now cs embs db).chunks.length = db.chunks.length + cs.length := by
  have h := congrArg List.length (insertChunks_map_hash now cs embs db)
  simpa using h

/-- C1 (counterexample): the dedup filter only consults the store, not the
batch itself, so ingesting the same fresh text twice in one call inserts two
chunk rows sharing one text hash — the batch has 1 distinct text but the
count rises by 2. -/
theorem c1_ingest_within_batch_duplicate :
    (([⟨"a", "user", "conversation", "s", "main", 1, "t0"⟩,
       ⟨"a", "user", "conversation", "s", "main", 1, "t0"⟩] :
        List Candidate).map fun c => sha256Hex c.text).dedup.length = 1
    ∧ (ingest ⟨[], 1, none, [], [], none⟩
        [⟨"a", "user", "conversation", "s", "main", 1, "t0"⟩,
         ⟨"a", "user", "conversation", "s", "main", 1, "t0"⟩]
        (fun ts => ts.map fun _ => [1]) "t").2 = 2
    ∧ ((ingest ⟨[], 1, none, [], [], none⟩
        [⟨"a", "user", "conversation", "s", "main", 1, "t0"⟩,
         ⟨"a", "user", "conversation", "s", "main", 1, "t0"⟩]
        (fun ts => ts.map fun _ => [1]) "t").1.chunks.map fun r => r.text_hash)
      = [sha256Hex "a", sha256Hex "a"] := by
  refine ⟨by decide, ?_, ?_⟩ <;> rfl

/-- C1 (amended): ingest inserts exactly the candidates whose text hash is
absent from the store before the call (within-batch duplicates are each
inserted), the returned count and the chunk-count delta both equal the
number of such candidates, and — provided the batch itself has no duplicate
hashes — the store-wide invariant that no two chunk rows share a text hash
is preserved. -/
theorem c1_ingest_dedup_amended (db : CrystalDB) (cands : List Candidate)
    (embedder : List String → List (List ℚ)) (now : String) :
    (ingest db cands embedder now).1.chunks.length
      = db.chunks.length
        + (cands.filter fun c =>
            decide (¬∃ row ∈ db.chunks, row.text_hash = sha256Hex c.text)).length
    ∧ (ingest db cands embedder now).2
      = (cands.filter fun c =>
          decide (¬∃ row ∈ db.chunks, row.text_hash = sha256Hex c.text)).length
    ∧ ((cands.map fun c => sha256Hex c.text).Nodup →
        (db.chunks.map fun r => r.text_hash).Nodup →
        ((ingest db cands embedder now).1.chunks.map fun r => r.text_hash).Nodup) := by
  by_cases hc : cands.length = 0
  · rw [List.length_eq_zero] at hc
    subst hc
    refine ⟨by simp [ingest], by simp [ingest], ?_⟩
    intro _ hdb
    simpa [ingest] using hdb
  · by_cases hnew : (cands.filter fun c =>
        decide (¬∃ row ∈ db.chunks, row.text_hash = sha256Hex c.text)).length = 0
    · have hig : ingest db cands embedder now = (db, 0) := by
        simp only [ingest]
        rw [if_neg hc, if_pos hnew]
      refine ⟨?_, ?_, ?_⟩
      · rw [hig, hnew]
        rfl
      · rw [hig, hnew]
      · intro _ hdb
        rw [hig]
        exact hdb
    · have hmain : ((ingest db cands embedder now).1.chunks.map fun r => r.text_hash)
          = (db.chunks.map fun r => r.text_hash)
            ++ ((cands.filter fun c =>
                decide (¬∃ row ∈ db.chunks, row.text_hash = sha256Hex c.text)).map
                  fun c => sha256Hex c.text) := by
        simp only [ingest]
        rw [if_neg hc, if_neg hnew]
        dsimp only
        rw [insertChunks_map_hash]
        congr 2
        split <;> rfl
      have hcount : (ingest db cands embedder now).2
          = (cands.filter fun c =>
              decide (¬∃ row ∈ db.chunks, row.text_hash = sha256Hex c.text)).length := by
        simp only [ingest]
        rw [if_neg hc, if_neg hnew]
      refine ⟨?_, hcount, ?_⟩
      · have h := congrArg List.length hmain
        simpa using h
      · intro hcands hdb
        rw [hmain]
        refine List.Nodup.append hdb ?_ ?_
        · exact hcands.sublist (List.Sublist.map _ (List.filter_sublist _))
        · intro a ha hb
          obtain ⟨c, hcf, rfl⟩ := List.mem_map.mp hb
          have hpred := of_decide_eq_true (List.mem_filter.mp hcf).2
          exact hpred (by
            obtain ⟨r, hr, hrh⟩ := List.mem_map.mp ha
            exact ⟨r, hr, hrh⟩)

/-- Witness for C1 (amended) at a concrete store and batch. -/
theorem c1_ingest_dedup_amended_witness :
    (ingest ⟨[], 1, none, [], [], none⟩
        [⟨"a", "user", "conversation", "s", "main", 1, "t0"⟩]
        (fun ts => ts.map fun _ => [1]) "t").1.chunks.length
      = ([] : List ChunkRow).length
        + (([⟨"a", "user", "conversation", "s", "main", 1, "t0"⟩] :
            List Candidate).filter fun c =>
            decide (¬∃ row ∈ ([] : List ChunkRow), row.text_hash = sha256Hex c.text)).length
    ∧ ((ingest ⟨[], 1, none, [], [], none⟩
        [⟨"a", "user", "conversation", "s", "main", 1, "t0"⟩]
        (fun ts => ts.map fun _ => [1]) "t").1.chunks.map fun r => r.text_hash).Nodup := by
  have h := c1_ingest_dedup_amended ⟨[], 1, none, [], [], none⟩
    [⟨"a", "user", "conversation", "s", "main", 1, "t0"⟩]
    (fun ts => ts.map fun _ => [1]) "t"
  exact ⟨h.1, h.2.2 (by decide) (by decide)⟩

/-! ## Reciprocal Rank Fusion (core.ts `reciprocalRankFusion`)

Scores are JavaScript floats in the source; all values reached here are
small dyadic/rational numbers, modelled exactly in `ℚ` (0.05 = 1/20,
0.02 = 1/50). -/

/-- A search result record of core.ts. -/
structure SearchResult where
  text : String
  role : String
  score : ℚ
  source_type : String
  source_id : String
  agent_id : String
  created_at : String
  freshness : Option Freshness
deriving Repr, DecidableEq

/-- The dedup key used by the fusion: the first 200 characters of the text. -/
def dedupKey (r : SearchResult) : String := r.text.take 200

/-- One fusion entry of the `scores` map. -/
structure FusedEntry where
  result : SearchResult
  rrfScore : ℚ
  topRank : Nat
deriving Repr, DecidableEq

/-- One `scores.set` step of the fusion loop: accumulate into an existing
entry (keeping its map position, as a JS Map does) or append a new one. -/
def rrfInsert (scores : List (String × FusedEntry)) (key : String)
    (res : SearchResult) (contrib : ℚ) (rank : Nat) : List (String × FusedEntry) :=
  match scores with
  | [] => [(key, ⟨res, contrib, rank⟩)]
  | (k, e) :: rest =>
    if k = key then
      (k, { e with rrfScore := e.rrfScore + contrib, topRank := min e.topRank rank }) :: rest
    else (k, e) :: rrfInsert rest key res contrib rank

/-- The inner rank loop of the fusion over one result list. -/
def rrfProcessList (k : Nat) (w : ℚ) :
    Nat → List SearchResult → List (String × FusedEntry) → List (String × FusedEntry)
  | _, [], scores => scores
  | rank, r :: rest, scores =>
    rrfProcessList k w (rank + 1) rest
      (rrfInsert scores (dedupKey r) r (w / ((k : ℚ) + (rank : ℚ) + 1)) rank)

/-- The outer loop of the fusion over the result lists (`weights[i] ?? 1.0`). -/
def rrfProcessLists (k : Nat) :
    Nat → List (List SearchResult) → List ℚ → List (String × FusedEntry) →
      List (String × FusedEntry)
  | _, [], _, scores => scores
  | listIdx, l :: ls, weights, scores =>
    rrfProcessLists k (listIdx + 1) ls weights
      (rrfProcessList k (weights.getD listIdx 1) 0 l scores)

/-- The top-rank bonus of the fusion. -/
def rrfBonus (e : FusedEntry) : FusedEntry :=
  if e.topRank = 0 then { e with rrfScore := e.rrfScore + 1 / 20 }
  else if e.topRank ≤ 2 then { e with rrfScore := e.rrfScore + 1 / 50 }
  else e

/-- Stable insertion of one element into a descending-sorted list. -/
def insertDescBy {α : Type} (keyf : α → ℚ) (x : α) : List α → List α
  | [] => [x]
  | y :: ys => if keyf y < keyf x then x :: y :: ys else y :: insertDescBy keyf x ys

/-- Stable sort, descending by the given key (the `sort((a, b) => b.score -
a.score)` calls of core.ts). -/
def sortDescBy {α : Type} (keyf : α → ℚ) : List α → List α
  | [] => []
  | x :: xs => insertDescBy keyf x (sortDescBy keyf xs)

/-- The `reciprocalRankFusion` method of core.ts. -/
def reciprocalRankFusion (resultLists : List (List SearchResult))
    (weights : List ℚ) (k : Nat) : List SearchResult :=
  let entries := (rrfProcessLists k 0 resultLists weights []).map fun p => rrfBonus p.2
  (sortDescBy (fun e : FusedEntry => e.rrfScore) entries).map
    fun e => { e.result with score := e.rrfScore }

/-- The fused score held for a dedup key in the scores map. -/
def lookupScore (s : List (String × FusedEntry)) (d : String) : ℚ :=
  match s with
  | [] => 0
  | (k, e) :: rest => if k = d then e.rrfScore else lookupScore rest d

/-- The total RRF contribution a result list makes to a dedup key. -/
def contribSum (k : Nat) (w : ℚ) : Nat → List SearchResult → String → ℚ
  | _, [], _ => 0
  | rank, r :: rest, d =>
    (if dedupKey r = d then w / ((k : ℚ) + (rank : ℚ) + 1) else 0)
      + contribSum k w (rank + 1) rest d

theorem mem_insertDescBy {α : Type} (keyf : α → ℚ) (x a : α) :
    ∀ l : List α, a ∈ insertDescBy keyf x l ↔ a = x ∨ a ∈ l := by
  intro l
  induction l with
  | nil => simp [insertDescBy]
  | cons y ys ih =>
    by_cases h : keyf y < keyf x
    · simp [insertDescBy, h]
    · simp [insertDescBy, h, ih]
      tauto

theorem mem_sortDescBy {α : Type} (keyf : α → ℚ) (a : α) :
    ∀ l : List α, a ∈ sortDescBy keyf l ↔ a ∈ l := by
  intro l
  induction l with
  | nil => simp [sortDescBy]
  | cons x xs ih => simp [sortDescBy, mem_insertDescBy, ih]

theorem lookupScore_insert (s : List (String × FusedEntry)) (key : String)
    (res : SearchResult) (c : ℚ) (rank : Nat) (d : String) :
    lookupScore (rrfInsert s key res c rank) d
      = lookupScore s d + (if key = d then c else 0) := by
  induction s with
  | nil =>
    by_cases h : key = d <;> simp [rrfInsert, lookupScore, h]
  | cons p rest ih =>
    obtain ⟨k, e⟩ := p
    by_cases hk : k = key
    · subst hk
      by_cases hd : k = d
      · subst hd
        simp [rrfInsert, lookupScore]
      · simp [rrfInsert, lookupScore, hd]
    · by_cases hd : k = d
      · subst hd
        have hkey : ¬key = k := fun h => hk h.symm
        simp [rrfInsert, lookupScore, hk, hkey]
      · simp [rrfInsert, lookupScore, hk, hd, ih]

theorem lookupScore_processList (k : Nat) (w : ℚ) (d : String) :
    ∀ (l : List SearchResult) (rank : Nat) (s : List (String × FusedEntry)),
    lookupScore (rrfProcessList k w rank l s) d
      = lookupScore s d + contribSum k w rank l d := by
  intro l
  induction l with
  | nil => intro rank s; simp [rrfProcessList, contribSum]
  | cons r rest ih =>
    intro rank s
    rw [rrfProcessList, ih, contribSum, lookupScore_insert]
    by_cases h : dedupKey r = d
    · simp [h]
      ring
    · simp [h]

theorem contribSum_of_not_mem (k : Nat) (w : ℚ) (d : String) :
    ∀ (l : List SearchResult) (rank : Nat), d ∉ l.map dedupKey →
    contribSum k w rank l d = 0 := by
  intro l
  induction l with
  | nil => intro rank _; rfl
  | cons r rest ih =>
    intro rank hd
    simp only [List.map_cons, List.mem_cons] at hd
    push_neg at hd
    rw [contribSum, ih _ hd.2, if_neg (fun h => hd.1 h.symm)]
    ring

theorem contribSum_nonneg (k : Nat) (w : ℚ) (hw : 0 ≤ w) (d : String) :
    ∀ (l : List SearchResult) (rank : Nat), 0 ≤ contribSum k w rank l d := by
  intro l
  induction l with
  | nil => intro rank; simp [contribSum]
  | cons r rest ih =>
    intro rank
    rw [contribSum]
    have h1 : (0 : ℚ) ≤ if dedupKey r = d then w / ((k : ℚ) + (rank : ℚ) + 1) else 0 := by
      split
      · positivity
      · exact le_refl 0
    have h2 := ih (rank + 1)
    linarith

theorem contribSum_le (k : Nat) (w : ℚ) (hw : 0 ≤ w) (d : String) :
    ∀ (l : List SearchResult) (rank : Nat), (l.map dedupKey).Nodup →
    contribSum k w rank l d ≤ w / ((k : ℚ) + (rank : ℚ) + 1) := by
  intro l
  induction l with
  | nil =>
    intro rank _
    rw [contribSum]
    positivity
  | cons r rest ih =>
    intro rank hnd
    simp only [List.map_cons, List.nodup_cons] at hnd
    rw [contribSum]
    by_cases hd : dedupKey r = d
    · rw [if_pos hd]
      have hz : contribSum k w (rank + 1) rest d = 0 := by
        apply contribSum_of_not_mem
        rw [← hd]
        exact hnd.1
      rw [hz]
      simp
    · rw [if_neg hd]
      have hle := ih (rank + 1) hnd.2
      have hmono : w / ((k : ℚ) + ((rank : ℚ) + 1) + 1) ≤ w / ((k : ℚ) + (rank : ℚ) + 1) := by
        apply div_le_div_of_nonneg_left hw
        · positivity
        · linarith
      push_cast at hle
      linarith

theorem rrfInsert_keys (s : List (String × FusedEntry)) (key : String)
    (res : SearchResult) (c : ℚ) (rank : Nat) :
    (key ∈ s.map Prod.fst
      ∧ (rrfInsert s key res c rank).map Prod.fst = s.map Prod.fst)
    ∨ (key ∉ s.map Prod.fst
      ∧ (rrfInsert s key res c rank).map Prod.fst = s.map Prod.fst ++ [key]) := by
  induction s with
  | nil => right; exact ⟨by simp, rfl⟩
  | cons p rest ih =>
    obtain ⟨k, e⟩ := p
    by_cases hk : k = key
    · subst hk
      left
      exact ⟨by simp, by simp [rrfInsert]⟩
    · rcases ih with ⟨hmem, heq⟩ | ⟨hmem, heq⟩
      · left
        refine ⟨by simp [hmem], ?_⟩
        simp [rrfInsert, hk, heq]
      · right
        refine ⟨?_, ?_⟩
        · intro hcon
          rcases List.mem_cons.mp hcon with h2 | h2
          · exact hk h2.symm
          · exact hmem h2
        · simp [rrfInsert, hk, heq]

theorem rrfInsert_keys_nodup (s : List (String × FusedEntry)) (key : String)
    (res : SearchResult) (c : ℚ) (rank : Nat)
    (h : (s.map Prod.fst).Nodup) :
    ((rrfInsert s key res c rank).map Prod.fst).Nodup := by
  rcases rrfInsert_keys s key res c rank with ⟨_, heq⟩ | ⟨hmem, heq⟩
  · rw [heq]; exact h
  · rw [heq]
    refine List.Nodup.append h (List.nodup_singleton _) ?_
    intro x hx hx2
    simp only [List.mem_singleton] at hx2
    subst hx2
    exact hmem hx

theorem rrfProcessList_keys_nodup (k : Nat) (w : ℚ) :
    ∀ (l : List SearchResult) (rank : Nat) (s : List (String × FusedEntry)),
    (s.map Prod.fst).Nodup →
    ((rrfProcessList k w rank l s).map Prod.fst).Nodup := by
  intro l
  induction l with
  | nil => intro rank s h; exact h
  | cons r rest ih =>
    intro rank s h
    exact ih _ _ (rrfInsert_keys_nodup _ _ _ _ _ h)

theorem rrfProcessLists_keys_nodup (k : Nat) :
    ∀ (ls : List (List SearchResult)) (listIdx : Nat) (weights : List ℚ)
      (s : List (String × FusedEntry)),
    (s.map Prod.fst).Nodup →
    ((rrfProcessLists k listIdx ls weights s).map Prod.fst).Nodup := by
  intro ls
  induction ls with
  | nil => intro listIdx weights s h; exact h
  | cons l rest ih =>
    intro listIdx weights s h
    exact ih _ _ _ (rrfProcessList_keys_nodup k _ l 0 s h)

theorem lookupScore_of_mem (s : List (String × FusedEntry)) (p : String × FusedEntry)
    (hnd : (s.map Prod.fst).Nodup) (hp : p ∈ s) :
    lookupScore s p.1 = p.2.rrfScore := by
  induction s with
  | nil => cases hp
  | cons q rest ih =>
    obtain ⟨k, e⟩ := q
    simp only [List.map_cons, List.nodup_cons] at hnd
    rcases List.mem_cons.mp hp with rfl | hmem
    · simp [lookupScore]
    · have hk : ¬k = p.1 := by
        intro hk
        exact hnd.1 (hk ▸ (List.mem_map.mpr ⟨p, hmem, rfl⟩))
      rw [lookupScore, if_neg hk]
      exact ih hnd.2 hmem

theorem rrfBonus_score_le (e : FusedEntry) :
    (rrfBonus e).rrfScore ≤ e.rrfScore + 1 / 20 := by
  unfold rrfBonus
  split_ifs <;> norm_num

/-- A concrete search result used in the C4 instances. -/
def c4CexResult : SearchResult :=
  ⟨"x", "user", 0, "conversation", "s", "main", "t", none⟩

set_option maxRecDepth 4000 in
/-- C4 (counterexample): the fused-score bound fails for arbitrary lists —
when a dedup key occurs twice in each list its contributions accumulate, so
with k = 60 and weights (1,1) the fused score reaches
2/61 + 2/62 + 1/20 > 2·(1/61) + 1/20. -/
theorem c4_rrf_bound_counterexample :
    ((reciprocalRankFusion [[c4CexResult, c4CexResult], [c4CexResult, c4CexResult]]
        [1, 1] 60).map fun r => r.score)
      = [2 / 61 + 2 / 62 + 1 / 20]
    ∧ 2 * (1 / 61 : ℚ) + 1 / 20 < 2 / 61 + 2 / 62 + 1 / 20 := by
  constructor
  · norm_num [reciprocalRankFusion, rrfProcessLists, rrfProcessList, rrfInsert,
      rrfBonus, sortDescBy, insertDescBy]
  · norm_num

/-- C4 (amended): for two ranked lists whose dedup keys (the first 200 text
characters) are distinct within each list, every fused score with k = 60 and
weights (1,1), top-rank bonus included, is at most 2·(1/61) + 1/20. -/
theorem c4_rrf_bound_amended (l1 l2 : List SearchResult)
    (h1 : (l1.map dedupKey).Nodup) (h2 : (l2.map dedupKey).Nodup) :
    ∀ r ∈ reciprocalRankFusion [l1, l2] [1, 1] 60,
      r.score ≤ 2 * (1 / 61) + 1 / 20 := by
  intro r hr
  unfold reciprocalRankFusion at hr
  obtain ⟨e, he, rfl⟩ := List.mem_map.mp hr
  rw [mem_sortDescBy] at he
  obtain ⟨p, hp, rfl⟩ := List.mem_map.mp he
  have hnd : ((rrfProcessLists 60 0 [l1, l2] [1, 1] []).map Prod.fst).Nodup :=
    rrfProcessLists_keys_nodup 60 [l1, l2] 0 [1, 1] [] (by simp)
  have hscore : p.2.rrfScore
      = lookupScore (rrfProcessLists 60 0 [l1, l2] [1, 1] []) p.1 :=
    (lookupScore_of_mem _ p hnd hp).symm
  have hstate : rrfProcessLists 60 0 [l1, l2] [1, 1] []
      = rrfProcessList 60 1 0 l2 (rrfProcessList 60 1 0 l1 []) := rfl
  have hsum : lookupScore (rrfProcessLists 60 0 [l1, l2] [1, 1] []) p.1
      = contribSum 60 1 0 l1 p.1 + contribSum 60 1 0 l2 p.1 := by
    rw [hstate, lookupScore_processList, lookupScore_processList]
    simp [lookupScore]
  have hb1 := contribSum_le 60 1 (by norm_num) p.1 l1 0 h1
  have hb2 := contribSum_le 60 1 (by norm_num) p.1 l2 0 h2
  have hbon := rrfBonus_score_le p.2
  have hshow : ({ (rrfBonus p.2).result with score := (rrfBonus p.2).rrfScore }
      : SearchResult).score = (rrfBonus p.2).rrfScore := rfl
  rw [hshow]
  have hconv : (1 : ℚ) / (((60 : Nat) : ℚ) + ((0 : Nat) : ℚ) + 1) = 1 / 61 := by
    norm_num
  rw [hconv] at hb1 hb2
  have hfin : p.2.rrfScore ≤ 2 * (1 / 61) := by
    rw [hscore, hsum]
    linarith
  linarith

/-- Witness for C4 (amended) at concrete lists. -/
theorem c4_rrf_bound_amended_witness :
    ((reciprocalRankFusion [[c4CexResult], []] [1, 1] 60).all
      fun r => decide (r.score ≤ 2 * (1 / 61) + 1 / 20)) = true := by
  have h := c4_rrf_bound_amended [c4CexResult] [] (by decide) (by decide)
  rw [List.all_eq_true]
  intro x hx
  exact decide_eq_true (h x hx)

/-! ## Hybrid search (core.ts `search` / `searchVec` / `searchFTS` /
`searchLanceFallback`)

The sqlite-vec MATCH, the FTS5 MATCH/bm25 and the LanceDB ANN are external
engines (sqlite extensions / LanceDB); they appear as function parameters.
The SQL around them — the id join, the filter clauses, ORDER BY and LIMIT —
is modelled from the statements in the source. -/

/-- The optional search filter of core.ts. -/
structure SearchFilter where
  agent_id : Option String
  source_type : Option String
deriving Repr, DecidableEq

/-- The WHERE clauses appended for a filter (`AND agent_id = ?`,
`AND source_type = ?`). -/
def filterAccepts (f : SearchFilter) (agent source : String) : Bool :=
  (match f.agent_id with | none => true | some a => agent == a)
    && (match f.source_type with | none => true | some t => source == t)

/-- A `new Map(pairs)` lookup: the last pair of a key wins. -/
def lookupLast (l : List (Nat × ℚ)) (id : Nat) : Option ℚ :=
  match l with
  | [] => none
  | (k, v) :: rest =>
    match lookupLast rest id with
    | some r => some r
    | none => if k = id then some v else none

/-- JavaScript `x || 1` on the distance (0 is falsy). -/
def jsOrOne (v : Option ℚ) : ℚ :=
  match v with
  | some x => if x = 0 then 1 else x
  | none => 1

/-- Stable insertion into an ascending-sorted list. -/
def insertAscBy {α : Type} (keyf : α → ℚ) (x : α) : List α → List α
  | [] => [x]
  | y :: ys => if keyf x < keyf y then x :: y :: ys else y :: insertAscBy keyf x ys

/-- Stable ascending sort by a key (the `ORDER BY bm25_score` of searchFTS). -/
def sortAscBy {α : Type} (keyf : α → ℚ) : List α → List α
  | [] => []
  | x :: xs => insertAscBy keyf x (sortAscBy keyf xs)

/-- The `searchVec` method: vec MATCH first (the engine parameter), then a
second statement fetching metadata by id with the filter applied there. -/
def searchVec (db : CrystalDB)
    (vecEngine : CrystalDB → List ℚ → Nat → List (Nat × ℚ))
    (embedding : List ℚ) (limit : Nat) (filter : SearchFilter) : List SearchResult :=
  match db.vecDimensions with
  | none => []
  | some _ =>
    let vecRows := vecEngine db embedding limit
    if vecRows.length = 0 then []
    else
      let ids := vecRows.map Prod.fst
      let rows := db.chunks.filter fun c =>
        decide (c.id ∈ ids) && filterAccepts filter c.agent_id c.source_type
      rows.map fun row =>
        { text := row.text
          role := row.role
          score := 1 - jsOrOne (lookupLast vecRows row.id)
          source_type := row.source_type
          source_id := row.source_id
          agent_id := row.agent_id
          created_at := row.created_at
          freshness := none }

/-- Characters kept by the FTS term sanitiser (`[^\p{L}\p{N}']` removed;
Unicode classes approximated by the Lean character predicates). -/
def keepChar (ch : Char) : Bool := ch.isAlpha || ch.isDigit || ch == Char.ofNat 39

/-- The `buildFTS5Query` method of core.ts. -/
def buildFTS5Query (query : String) : Option String :=
  let terms := ((query.split fun ch => ch.isWhitespace).map fun t =>
    String.mk ((t.toList.filter keepChar).map Char.toLower)).filter fun t => t.length > 0
  if terms.length = 0 then none
  else if terms.length = 1 then some ("\"" ++ terms.headD "" ++ "\"*")
  else some (String.intercalate " AND " (terms.map fun t => "\"" ++ t ++ "\"*"))

/-- The `searchFTS` method: FTS MATCH with bm25 scores (the engine
parameter), joined to chunks by rowid, filter clauses inline, ordered by
bm25 ascending, limited, then normalised to `|bm25| / (1 + |bm25|)`. -/
def searchFTS (db : CrystalDB)
    (ftsEngine : CrystalDB → String → List (Nat × ℚ))
    (query : String) (limit : Nat) (filter : SearchFilter) : List SearchResult :=
  match buildFTS5Query query with
  | none => []
  | some ftsQuery =>
    let matched := ftsEngine db ftsQuery
    let joined := matched.filterMap fun p =>
      (db.chunks.find? fun c => c.id == p.1).map fun c => (c, p.2)
    let filtered := joined.filter fun p =>
      filterAccepts filter p.1.agent_id p.1.source_type
    let ordered := (sortAscBy (fun p : ChunkRow × ℚ => p.2) filtered).take limit
    ordered.map fun p =>
      { text := p.1.text
        role := p.1.role
        score := |p.2| / (1 + |p.2|)
        source_type := p.1.source_type
        source_id := p.1.source_id
        agent_id := p.1.agent_id
        created_at := p.1.created_at
        freshness := none }

/-- The `searchLanceFallback` method: LanceDB vector search (the engine
parameter returns candidate rows with their cosine distance), where-filters,
cosine × recency scoring, sort, slice. -/
def searchLanceFallback (db : CrystalDB)
    (embedder : String → List ℚ)
    (lanceEngine : List LanceRow → List ℚ → Nat → List (LanceRow × Option ℚ))
    (dateParse : String → Int) (now : Int)
    (query : String) (limit : Nat) (filter : SearchFilter) : List SearchResult :=
  match db.lance with
  | none => []
  | some rows =>
    let embedding := embedder query
    let fetchLimit := max (limit * 3) 30
    let raw := lanceEngine rows embedding fetchLimit
    let filtered := raw.filter fun p =>
      filterAccepts filter p.1.agent_id p.1.source_type
    let mapped := filtered.map fun p =>
      let cosine : ℚ := match p.2 with | some d => 1 - d | none => 0
      let createdAt := p.1.created_at
      let ageDays : ℚ :=
        if createdAt = "" then 0 else ((now - dateParse createdAt : Int) : ℚ) / 86400000
      let weight := if createdAt = "" then 1 else recencyWeight ageDays
      { text := p.1.text
        role := p.1.role
        score := cosine * weight
        source_type := p.1.source_type
        source_id := p.1.source_id
        agent_id := p.1.agent_id
        created_at := createdAt
        freshness := if createdAt = "" then none else some (freshnessLabel ageDays) }
    (sortDescBy (fun r : SearchResult => r.score) mapped).take limit

/-- The `search` method of core.ts: fall back to LanceDB when sqlite-vec is
empty (or holds less than half the Lance rows), otherwise embed the query,
run the vector and lexical sides with `K = max(3·L, 30)`, fuse with RRF,
apply recency weighting and the ×8 rescale capped at 1, sort and slice. -/
def search (db : CrystalDB)
    (embedder : String → List ℚ)
    (vecEngine : CrystalDB → List ℚ → Nat → List (Nat × ℚ))
    (ftsEngine : CrystalDB → String → List (Nat × ℚ))
    (lanceEngine : List LanceRow → List ℚ → Nat → List (LanceRow × Option ℚ))
    (dateParse : String → Int) (now : Int)
    (query : String) (limit : Nat) (filter : SearchFilter) : List SearchResult :=
  let sqliteChunks := db.chunks.length
  let lanceChunks := (db.lance.getD []).length
  if sqliteChunks = 0
      ∨ (0 < lanceChunks ∧ (sqliteChunks : ℚ) < (lanceChunks : ℚ) * (1 / 2)) then
    searchLanceFallback db embedder lanceEngine dateParse now query limit filter
  else
    let embedding := embedder query
    let fetchLimit := max (limit * 3) 30
    let vecResults := searchVec db vecEngine embedding fetchLimit filter
    let ftsResults := searchFTS db ftsEngine query fetchLimit filter
    let fused := reciprocalRankFusion [ftsResults, vecResults] [1, 1] 60
    let scored := fused.map fun r =>
      let ageDays : ℚ :=
        if r.created_at = "" then 0
        else ((now - dateParse r.created_at : Int) : ℚ) / 86400000
      let recency : ℚ := if r.created_at = "" then 1 else recencyWeight ageDays
      { r with
        score := min (r.score * recency * 8) 1
        freshness := if r.created_at = "" then none else some (freshnessLabel ageDays) }
    (sortDescBy (fun r : SearchResult => r.score) scored).take limit

theorem mem_insertAscBy {α : Type} (keyf : α → ℚ) (x a : α) :
    ∀ l : List α, a ∈ insertAscBy keyf x l ↔ a = x ∨ a ∈ l := by
  intro l
  induction l with
  | nil => simp [insertAscBy]
  | cons y ys ih =>
    by_cases h : keyf x < keyf y
    · simp [insertAscBy, h]
    · simp [insertAscBy, h, ih]
      tauto

theorem mem_sortAscBy {α : Type} (keyf : α → ℚ) (a : α) :
    ∀ l : List α, a ∈ sortAscBy keyf l ↔ a ∈ l := by
  intro l
  induction l with
  | nil => simp [sortAscBy]
  | cons x xs ih => simp [sortAscBy, mem_insertAscBy, ih]

theorem searchVec_filter_respected (db : CrystalDB)
    (vecEngine : CrystalDB → List ℚ → Nat → List (Nat × ℚ))
    (embedding : List ℚ) (limit : Nat) (filter : SearchFilter) :
    ∀ r ∈ searchVec db vecEngine embedding limit filter,
      filterAccepts filter r.agent_id r.source_type = true := by
  intro r hr
  unfold searchVec at hr
  split at hr
  · exact absurd hr (List.not_mem_nil r)
  · dsimp only at hr
    split at hr
    · exact absurd hr (List.not_mem_nil r)
    · obtain ⟨row, hrow, rfl⟩ := List.mem_map.mp hr
      have hb := (List.mem_filter.mp hrow).2
      simp only [Bool.and_eq_true] at hb
      exact hb.2

theorem searchFTS_filter_respected (db : CrystalDB)
    (ftsEngine : CrystalDB → String → List (Nat × ℚ))
    (query : String) (limit : Nat) (filter : SearchFilter) :
    ∀ r ∈ searchFTS db ftsEngine query limit filter,
      filterAccepts filter r.agent_id r.source_type = true := by
  intro r hr
  unfold searchFTS at hr
  split at hr
  · exact absurd hr (List.not_mem_nil r)
  · dsimp only at hr
    obtain ⟨p, hp, rfl⟩ := List.mem_map.mp hr
    have hp2 := (mem_sortAscBy _ _ _).mp (List.mem_of_mem_take hp)
    exact (List.mem_filter.mp hp2).2

theorem rrfInsert_result_pred (C : SearchResult → Prop)
    (s : List (String × FusedEntry)) (key : String) (res : SearchResult)
    (c : ℚ) (rank : Nat)
    (hs : ∀ p ∈ s, C p.2.result) (hres : C res) :
    ∀ p ∈ rrfInsert s key res c rank, C p.2.result := by
  induction s with
  | nil =>
    intro p hp
    rw [rrfInsert, List.mem_singleton] at hp
    subst hp
    exact hres
  | cons q rest ih =>
    intro p hp
    obtain ⟨k, e⟩ := q
    rw [rrfInsert] at hp
    split at hp
    · rcases List.mem_cons.mp hp with rfl | hmem
      · exact hs (k, e) (List.mem_cons_self _ _)
      · exact hs p (List.mem_cons_of_mem _ hmem)
    · rcases List.mem_cons.mp hp with rfl | hmem
      · exact hs (k, e) (List.mem_cons_self _ _)
      · exact ih (fun q hq => hs q (List.mem_cons_of_mem _ hq)) p hmem

theorem rrfProcessList_result_pred (C : SearchResult → Prop) (k : Nat) (w : ℚ) :
    ∀ (l : List SearchResult) (rank : Nat) (s : List (String × FusedEntry)),
    (∀ p ∈ s, C p.2.result) → (∀ x ∈ l, C x) →
    ∀ p ∈ rrfProcessList k w rank l s, C p.2.result := by
  intro l
  induction l with
  | nil => intro rank s hs _ p hp; exact hs p hp
  | cons r rest ih =>
    intro rank s hs hl p hp
    exact ih _ _
      (rrfInsert_result_pred C s (dedupKey r) r _ rank hs (hl r (List.mem_cons_self _ _)))
      (fun x hx => hl x (List.mem_cons_of_mem _ hx)) p hp

theorem rrfProcessLists_result_pred (C : SearchResult → Prop) (k : Nat) :
    ∀ (ls : List (List SearchResult)) (listIdx : Nat) (weights : List ℚ)
      (s : List (String × FusedEntry)),
    (∀ p ∈ s, C p.2.result) → (∀ l ∈ ls, ∀ x ∈ l, C x) →
    ∀ p ∈ rrfProcessLists k listIdx ls weights s, C p.2.result := by
  intro ls
  induction ls with
  | nil => intro listIdx weights s hs _ p hp; exact hs p hp
  | cons l rest ih =>
    intro listIdx weights s hs hl p hp
    exact ih _ _ _
      (rrfProcessList_result_pred C k _ l 0 s hs (hl l (List.mem_cons_self _ _)))
      (fun l2 hl2 => hl l2 (List.mem_cons_of_mem _ hl2)) p hp

theorem rrf_result_pred (C : SearchResult → Prop)
    (lists : List (List SearchResult)) (weights : List ℚ) (k : Nat)
    (hC : ∀ (r : SearchResult) (q : ℚ), C r → C { r with score := q })
    (hl : ∀ l ∈ lists, ∀ x ∈ l, C x) :
    ∀ r ∈ reciprocalRankFusion lists weights k, C r := by
  intro r hr
  unfold reciprocalRankFusion at hr
  obtain ⟨e, he, rfl⟩ := List.mem_map.mp hr
  rw [mem_sortDescBy] at he
  obtain ⟨p, hp, rfl⟩ := List.mem_map.mp he
  apply hC
  have hres : (rrfBonus p.2).result = p.2.result := by
    unfold rrfBonus
    split_ifs <;> rfl
  rw [hres]
  exact rrfProcessLists_result_pred C k lists 0 weights []
    (fun q hq => absurd hq (List.not_mem_nil q)) hl p hp

/-- C5: if the store holds no chunks at all — the sqlite chunks table is
empty and the legacy LanceDB table is absent or empty — then search returns
the empty list for every query, limit and filter (any well-behaved Lance
engine returns rows of the table it searches). -/
theorem c5_empty_store_search_empty (db : CrystalDB)
    (embedder : String → List ℚ)
    (vecEngine : CrystalDB → List ℚ → Nat → List (Nat × ℚ))
    (ftsEngine : CrystalDB → String → List (Nat × ℚ))
    (lanceEngine : List LanceRow → List ℚ → Nat → List (LanceRow × Option ℚ))
    (dateParse : String → Int) (now : Int)
    (query : String) (limit : Nat) (filter : SearchFilter)
    (hchunks : db.chunks = [])
    (hlance : db.lance = none ∨ db.lance = some [])
    (hengine : ∀ rows emb lim, ∀ p ∈ lanceEngine rows emb lim, p.1 ∈ rows) :
    search db embedder vecEngine ftsEngine lanceEngine dateParse now query limit filter
      = [] := by
  have hzero : db.chunks.length = 0 := by rw [hchunks]; rfl
  unfold search
  rw [if_pos (Or.inl hzero)]
  rcases hlance with h | h
  · simp [searchLanceFallback, h]
  · have hraw : lanceEngine [] (embedder query) (max (limit * 3) 30) = [] := by
      cases hr : lanceEngine [] (embedder query) (max (limit * 3) 30) with
      | nil => rfl
      | cons p ps =>
        exact absurd (hengine [] _ _ p (hr ▸ List.mem_cons_self p ps))
          (List.not_mem_nil _)
    simp [searchLanceFallback, h, hraw, sortDescBy]

/-- Witness for C5 at a fully empty concrete store. -/
theorem c5_empty_store_search_empty_witness :
    search ⟨[], 1, none, [], [], none⟩ (fun _ => [1])
      (fun _ _ _ => []) (fun _ _ => []) (fun _ _ _ => [])
      (fun _ => 0) 0 "q" 5 ⟨none, none⟩ = [] :=
  c5_empty_store_search_empty ⟨[], 1, none, [], [], none⟩ (fun _ => [1])
    (fun _ _ _ => []) (fun _ _ => []) (fun _ _ _ => [])
    (fun _ => 0) 0 "q" 5 ⟨none, none⟩ rfl (Or.inl rfl)
    (fun _ _ _ p hp => absurd hp (List.not_mem_nil p))

/-- C10: on the hybrid (non-fallback) path every result returned by search
satisfies the supplied filter, because both the vector branch and the
lexical branch apply the filter in their metadata statements before the RRF
fusion, and fusion, recency weighting, sorting and slicing only rearrange
and rescore those rows. -/
theorem c10_search_results_satisfy_filter (db : CrystalDB)
    (embedder : String → List ℚ)
    (vecEngine : CrystalDB → List ℚ → Nat → List (Nat × ℚ))
    (ftsEngine : CrystalDB → String → List (Nat × ℚ))
    (lanceEngine : List LanceRow → List ℚ → Nat → List (LanceRow × Option ℚ))
    (dateParse : String → Int) (now : Int)
    (query : String) (limit : Nat) (filter : SearchFilter)
    (hmain : ¬(db.chunks.length = 0
      ∨ (0 < (db.lance.getD []).length
        ∧ ((db.chunks.length : ℚ) < ((db.lance.getD []).length : ℚ) * (1 / 2))))) :
    ∀ r ∈ search db embedder vecEngine ftsEngine lanceEngine dateParse now
        query limit filter,
      filterAccepts filter r.agent_id r.source_type = true := by
  intro r hr
  unfold search at hr
  rw [if_neg hmain] at hr
  dsimp only at hr
  have hr2 := (mem_sortDescBy _ _ _).mp (List.mem_of_mem_take hr)
  obtain ⟨x, hx, rfl⟩ := List.mem_map.mp hr2
  show filterAccepts filter x.agent_id x.source_type = true
  refine rrf_result_pred
    (fun y => filterAccepts filter y.agent_id y.source_type = true)
    [searchFTS db ftsEngine query (max (limit * 3) 30) filter,
     searchVec db vecEngine (embedder query) (max (limit * 3) 30) filter]
    [1, 1] 60 (fun y q hy => hy) ?_ x hx
  intro l hl y hy
  rcases List.mem_cons.mp hl with rfl | hl2
  · exact searchFTS_filter_respected db ftsEngine query _ filter y hy
  · rcases List.mem_cons.mp hl2 with rfl | hl3
    · exact searchVec_filter_respected db vecEngine (embedder query) _ filter y hy
    · exact absurd hl3 (List.not_mem_nil l)

/-- Witness for C10 at a concrete one-chunk store with an agent filter. -/
theorem c10_search_results_satisfy_filter_witness :
    ((search ⟨[⟨1, "hello", "hello", "user", "conversation", "s", "main", 1, "t"⟩],
        2, some 1, [(1, [1])], [], none⟩
      (fun _ => [1]) (fun _ _ _ => [(1, 0)]) (fun _ _ => [(1, -1)])
      (fun _ _ _ => []) (fun _ => 0) 0 "hello" 5 ⟨some "main", none⟩).all
      fun r => filterAccepts ⟨some "main", none⟩ r.agent_id r.source_type) = true := by
  have h := c10_search_results_satisfy_filter
    ⟨[⟨1, "hello", "hello", "user", "conversation", "s", "main", 1, "t"⟩],
      2, some 1, [(1, [1])], [], none⟩
    (fun _ => [1]) (fun _ _ _ => [(1, 0)]) (fun _ _ => [(1, -1)])
    (fun _ _ _ => []) (fun _ => 0) 0 "hello" 5 ⟨some "main", none⟩ (by decide)
  rw [List.all_eq_true]
  intro x hx
  exact h x hx

/-! ## Chunker (core.ts `chunkText`)

Text is a list of characters; window indices are JavaScript numbers holding
integers, modelled as `Int` with the JS clamping semantics of `slice` and
`lastIndexOf` (a negative slice start counts from the end). The while loop
becomes a step function driven by fuel. -/

/-- JS index clamping for `slice`: negative counts from the end, then clamp
to `[0, len]`. -/
def jsClampIndex (len : Nat) (i : Int) : Nat :=
  if i < 0 then (max ((len : Int) + i) 0).toNat else (min i (len : Int)).toNat

/-- JavaScript `String.prototype.slice`. -/
def jsSlice (text : List Char) (a b : Int) : List Char :=
  let a2 := jsClampIndex text.length a
  let b2 := jsClampIndex text.length b
  (text.drop a2).take (b2 - a2)

/-- Whether `pat` occurs in `text` starting at position `k`. -/
def hasPatAt (text pat : List Char) (k : Nat) : Bool :=
  decide ((text.drop k).take pat.length = pat)

/-- Scan for the last occurrence at a position ≤ `p`. -/
def lastIndexAux (text pat : List Char) : Nat → Int
  | 0 => if hasPatAt text pat 0 then 0 else -1
  | p + 1 => if hasPatAt text pat (p + 1) then ((p : Int) + 1) else lastIndexAux text pat p

/-- JavaScript `String.prototype.lastIndexOf(pat, fromIdx)`. -/
def jsLastIndexOf (text pat : List Char) (fromIdx : Int) : Int :=
  lastIndexAux text pat (min (max fromIdx 0) (text.length : Int)).toNat

/-- JavaScript `String.prototype.trim` (whitespace set approximated by the
Lean character predicate). -/
def jsTrim (text : List Char) : List Char :=
  ((text.dropWhile Char.isWhitespace).reverse.dropWhile Char.isWhitespace).reverse

/-- The loop state of `chunkText`: the window start and the emitted chunks. -/
structure ChunkState where
  start : Int
  chunks : List (List Char)
deriving Repr, DecidableEq

/-- Result of one loop iteration. -/
inductive ChunkStep where
  | done (chunks : List (List Char)) : ChunkStep
  | next (s : ChunkState) : ChunkStep
deriving Repr, DecidableEq

/-- The window-end computation of one iteration: target end clipped to the
text length, snapped back to the last blank-line break after
`start + targetChars·0.5`, else to the last sentence break (`". "`, end just
after the period).  `targetChars = 4·t`, so `floor(targetChars·0.5) = 2·t`
exactly. -/
def windowEnd (text : List Char) (t : Nat) (start : Int) : Int :=
  let len : Int := text.length
  let e0 := min (start + 4 * (t : Int)) len
  if e0 < len then
    let minBreak := start + 2 * (t : Int)
    let paraBreak := jsLastIndexOf text ['\n', '\n'] e0
    if paraBreak > minBreak then paraBreak
    else
      let sentBreak := jsLastIndexOf text ['.', ' '] e0
      if sentBreak > minBreak then sentBreak + 1 else e0
  else e0

/-- One iteration of the `chunkText` while loop. -/
def chunkStep (text : List Char) (t o : Nat) (s : ChunkState) : ChunkStep :=
  let len : Int := text.length
  if s.start < len then
    let e := windowEnd text t s.start
    let chunk := jsTrim (jsSlice text s.start e)
    let chunks2 := if 0 < chunk.length then s.chunks ++ [chunk] else s.chunks
    if len ≤ e then .done chunks2
    else
      let st1 := e - 4 * (o : Int)
      let st2 :=
        if st1 ≤ (if 0 < chunks2.length then e - 4 * (t : Int) else 0) then e else st1
      .next ⟨st2, chunks2⟩
  else .done s.chunks

/-- Run the loop with fuel. -/
def chunkRun (text : List Char) (t o : Nat) : Nat → ChunkState → Option (List (List Char))
  | 0, _ => none
  | fuel + 1, s =>
    match chunkStep text t o s with
    | .done cs => some cs
    | .next s2 => chunkRun text t o fuel s2

/-- The `chunkText` method of core.ts (`t`, `o` are targetTokens and
overlapTokens), with fuel making the while loop total. -/
def chunkText (text : List Char) (t o : Nat) (fuel : Nat) : Option (List (List Char)) :=
  chunkRun text t o fuel ⟨0, []⟩

/-- Termination of the chunker on a given input: some fuel suffices. -/
def chunkTerminates (text : List Char) (t o : Nat) : Prop :=
  ∃ fuel, (chunkText text t o fuel).isSome = true

/-- The 30-character text `"aaaaaaaaa. bbbbbbbbbbbbbbbbbbb"` on which
`chunkText` with targetTokens 4 and overlapTokens 3 loops forever. -/
def c9CexText : List Char :=
  ['a', 'a', 'a', 'a', 'a', 'a', 'a', 'a', 'a', '.', ' ',
   'b', 'b', 'b', 'b', 'b', 'b', 'b', 'b', 'b', 'b', 'b', 'b', 'b', 'b',
   'b', 'b', 'b', 'b', 'b']

/-- The single chunk the looping run emits. -/
def c9CexChunk : List Char := ['a', 'a', 'a', 'a', 'a', 'a', 'a', 'a', 'a', '.']

/-- C9 (counterexample): with targetTokens 4 and overlapTokens 3 (both
positive) on `c9CexText`, the loop reaches the state `start = -2` after one
iteration and then steps to itself forever — no fuel makes `chunkText`
finish, so the chunker does not terminate for every positive parameter
pair; the same run moves the window start from 0 to −2, regressing below
the previous window's start. -/
theorem c9_chunker_nonterminating :
    ¬chunkTerminates c9CexText 4 3
    ∧ chunkStep c9CexText 4 3 ⟨0, []⟩ = .next ⟨-2, [c9CexChunk]⟩ := by
  have hstep0 : chunkStep c9CexText 4 3 ⟨0, []⟩ = .next ⟨-2, [c9CexChunk]⟩ := by decide
  have hfix : chunkStep c9CexText 4 3 ⟨-2, [c9CexChunk]⟩
      = .next ⟨-2, [c9CexChunk]⟩ := by decide
  have hloop : ∀ fuel, chunkRun c9CexText 4 3 fuel ⟨-2, [c9CexChunk]⟩ = none := by
    intro fuel
    induction fuel with
    | zero => rfl
    | succ n ih =>
      simp only [chunkRun, hfix]
      exact ih
  refine ⟨?_, hstep0⟩
  rintro ⟨fuel, hsome⟩
  unfold chunkText at hsome
  cases fuel with
  | zero => simp [chunkRun] at hsome
  | succ n =>
    rw [show chunkRun c9CexText 4 3 (n + 1) ⟨0, []⟩
        = chunkRun c9CexText 4 3 n ⟨-2, [c9CexChunk]⟩ from by
      simp only [chunkRun, hstep0]] at hsome
    rw [hloop n] at hsome
    simp at hsome

theorem windowEnd_lower (text : List Char) (t : Nat) (start : Int) (ht : 1 ≤ t)
    (hlt : windowEnd text t start < (text.length : Int)) :
    start + 2 * (t : Int) + 1 ≤ windowEnd text t start := by
  unfold windowEnd at hlt ⊢
  by_cases h0 : min (start + 4 * (t : Int)) ((text.length : Int)) < (text.length : Int)
  · rw [if_pos h0] at hlt ⊢
    dsimp only at hlt ⊢
    have he0 : min (start + 4 * (t : Int)) ((text.length : Int))
        = start + 4 * (t : Int) := by
      rcases min_cases (start + 4 * (t : Int)) ((text.length : Int)) with ⟨h1, _⟩ | ⟨h1, _⟩
      · exact h1
      · rw [h1] at h0
        exact absurd h0 (lt_irrefl _)
    split_ifs with hp hs
    · omega
    · omega
    · rw [he0]
      omega
  · rw [if_neg h0] at hlt
    exact absurd hlt h0

theorem chunkStep_next_progress (text : List Char) (t o : Nat)
    (ho : 1 ≤ o) (hto : 2 * o ≤ t) (s s2 : ChunkState)
    (hstep : chunkStep text t o s = .next s2) :
    s.start < s2.start ∧ s2.start < (text.length : Int)
    ∧ (s2.start = windowEnd text t s.start - 4 * (o : Int)
       ∨ s2.start = windowEnd text t s.start) := by
  unfold chunkStep at hstep
  by_cases hlt : s.start < (text.length : Int)
  · rw [if_pos hlt] at hstep
    dsimp only at hstep
    by_cases hle : (text.length : Int) ≤ windowEnd text t s.start
    · rw [if_pos hle] at hstep
      exact absurd hstep (by simp)
    · rw [if_neg hle] at hstep
      have helt : windowEnd text t s.start < (text.length : Int) := by omega
      have ht1 : 1 ≤ t := by omega
      have hebound := windowEnd_lower text t s.start ht1 helt
      injection hstep with hs2
      subst hs2
      dsimp only
      split_ifs <;>
        first
          | exact ⟨by omega, helt, Or.inr rfl⟩
          | exact ⟨by omega, by omega, Or.inl rfl⟩
  · rw [if_neg hlt] at hstep
    exact absurd hstep (by simp)

theorem chunkRun_isSome (text : List Char) (t o : Nat)
    (ho : 1 ≤ o) (hto : 2 * o ≤ t) :
    ∀ (fuel : Nat) (s : ChunkState), ((text.length : Int) - s.start).toNat < fuel →
    (chunkRun text t o fuel s).isSome = true := by
  intro fuel
  induction fuel with
  | zero => intro s h; omega
  | succ n ih =>
    intro s h
    cases hstep : chunkStep text t o s with
    | done cs => simp [chunkRun, hstep]
    | next s2 =>
      simp only [chunkRun, hstep]
      apply ih
      obtain ⟨h1, h2, _⟩ := chunkStep_next_progress text t o ho hto s s2 hstep
      omega

/-- C9 (amended): whenever `2·overlap_tokens ≤ target_tokens` (the defaults
400/80 included) the chunker terminates — fuel `len + 2` suffices — and
every continuing step strictly advances the window start (so it never
regresses below the previous window's start); the next start is
`end − 4·overlap_tokens` unless the source's clamp (`start ≤ end −
4·target_tokens`, or `≤ 0` before the first emitted chunk) fires, in which
case it is `end`. -/
theorem c9_chunker_amended (text : List Char) (t o : Nat)
    (ho : 1 ≤ o) (hto : 2 * o ≤ t) :
    (chunkText text t o (text.length + 2)).isSome = true
    ∧ ∀ s s2, chunkStep text t o s = .next s2 →
        s.start < s2.start
        ∧ (s2.start = windowEnd text t s.start - 4 * (o : Int)
           ∨ s2.start = windowEnd text t s.start) := by
  constructor
  · unfold chunkText
    apply chunkRun_isSome text t o ho hto
    simp
  · intro s s2 hstep
    obtain ⟨h1, _, h3⟩ := chunkStep_next_progress text t o ho hto s s2 hstep
    exact ⟨h1, h3⟩

/-- Witness for C9 (amended) at the default parameters 400/80. -/
theorem c9_chunker_amended_witness :
    (chunkText c9CexText 400 80 (c9CexText.length + 2)).isSome = true :=
  (c9_chunker_amended c9CexText 400 80 (by decide) (by decide)).1
